import Mathlib

/-!
Verification of the simulated shell / version-control core of the Studio
component (`SimulatedTerminal` in `src/components/StudioMessage.tsx`).

The embedding mirrors the TypeScript source:
* the VFS is a JavaScript `Map<string, FileEntry>` — modelled as an
  association list with insertion-order semantics (`vset` updates in
  place, inserts at the end);
* `Set<string>` is modelled as a duplicate-free list in insertion order;
* commit ids and timestamps come from `Math.random()` / `new Date()`;
  both are opaque values only compared for equality, so they are modelled
  by a deterministic fresh counter threaded through the state;
* a branch head is the empty string `''` when the branch has no commits;
  `''`, `undefined` and `null` are all falsy and never match any commit
  id, so head references and `parentId` are modelled as `Option Nat`
  with `none` for all three;
* React `setX` calls inside one key handler are batched and the last
  write to a state atom wins; every handler reads the render-time
  (closure-captured) state.  This matters for `clear`, whose
  `setLines([])` is overwritten by the unconditional trailing
  `setLines(newLines)` built from the captured `lines`.
-/

/-! ## Character-list string primitives (JS `String` operations) -/

/-- JS `s.split(c)` for a single-character separator: always returns at
least one (possibly empty) chunk. -/
def splitChar (c : Char) : List Char → List (List Char)
  | [] => [[]]
  | x :: xs =>
    let r := splitChar c xs
    if x = c then [] :: r
    else
      match r with
      | [] => [[x]]
      | y :: ys => (x :: y) :: ys

/-- Split on a character predicate (used with whitespace for `split(/\s+/)`
after a `trim`, where the two coincide). -/
def splitPred (p : Char → Bool) : List Char → List (List Char)
  | [] => [[]]
  | x :: xs =>
    let r := splitPred p xs
    if p x then [] :: r
    else
      match r with
      | [] => [[x]]
      | y :: ys => (x :: y) :: ys

/-- JS `s.startsWith(pre)`. -/
def strStarts (s pre : String) : Bool := pre.data.isPrefixOf s.data

/-- JS `s.endsWith(suf)`. -/
def strEnds (s suf : String) : Bool := suf.data.isSuffixOf s.data

/-- JS `s.substring(n)`. -/
def strDrop (s : String) (n : Nat) : String := ⟨s.data.drop n⟩

/-- JS `s.length`. -/
def strLen (s : String) : Nat := s.data.length

/-- JS `s.includes(c)` for a single character. -/
def strHas (s : String) (c : Char) : Bool := s.data.contains c

/-- JS `s.substring(0, s.lastIndexOf('/') + 1)`: everything up to and
including the last slash (empty if there is no slash). -/
def uptoSlash (s : String) : String := ⟨(s.data.reverse.dropWhile (· ≠ '/')).reverse⟩

/-- JS `s.substring(s.lastIndexOf('/') + 1)`: everything after the last
slash (the whole string if there is no slash). -/
def afterSlash (s : String) : String := ⟨(s.data.reverse.takeWhile (· ≠ '/')).reverse⟩

/-- JS `s.trim()`. -/
def strTrim (s : String) : String :=
  ⟨((s.data.dropWhile Char.isWhitespace).reverse.dropWhile Char.isWhitespace).reverse⟩

/-- Substring occurrence test on character lists. -/
def listInfix (pat : List Char) : List Char → Bool
  | [] => pat.isEmpty
  | x :: xs => pat.isPrefixOf (x :: xs) || listInfix pat xs

/-- JS `s.includes(pat)`. -/
def strHasSub (s pat : String) : Bool := listInfix pat.data s.data

/-- JS `message.replace(/"/g, '')`. -/
def stripQuotes (s : String) : String := ⟨s.data.filter (· ≠ '"')⟩

/-- Lexicographic comparison on UTF code points, matching the default JS
`Array.prototype.sort` comparator on these strings. -/
def lexLt : List Char → List Char → Bool
  | [], [] => false
  | [], _ :: _ => true
  | _ :: _, [] => false
  | a :: as, b :: bs => if a < b then true else if b < a then false else lexLt as bs

/-- Insertion of one string into a sorted list. -/
def sortInsert (s : String) : List String → List String
  | [] => [s]
  | x :: xs => if lexLt s.data x.data then s :: x :: xs else x :: sortInsert s xs

/-- JS `array.sort()` on strings. -/
def sortStrs (l : List String) : List String := l.foldr sortInsert []

/-- `findLongestCommonPrefix` helper of the source: longest common prefix
of two character lists. -/
def lcp2 : List Char → List Char → List Char
  | x :: xs, y :: ys => if x = y then x :: lcp2 xs ys else []
  | _, _ => []

/-- `findLongestCommonPrefix` from the source, folded over the list. -/
def lcpAll : List String → String
  | [] => ""
  | s :: rest => ⟨rest.foldl (fun p t => lcp2 p t.data) s.data⟩

/-- `args[k]` with JS falsiness: an absent argument token behaves like the
empty string in every test the source performs on it. -/
def argD (args : List String) (k : Nat) : String := (args.get? k).getD ""

/-- Tokenize a trimmed command line: `fullCommand.split(/\s+/)`. -/
def tokenize (s : String) : List String :=
  ((splitPred Char.isWhitespace s.data).map (fun l => (⟨l⟩ : String))).filter (· ≠ "")

/-! ## The JS `Map` (association list, insertion order) and `Set` -/

/-- A JS `Map<string, α>`: entries in insertion order, keys unique. -/
abbrev VMap (α : Type) := List (String × α)

/-- `m.get(k)`. -/
def vget {α : Type} : VMap α → String → Option α
  | [], _ => none
  | (k', v) :: rest, k => if k' = k then some v else vget rest k

/-- `m.has(k)`. -/
def vhas {α : Type} (m : VMap α) (k : String) : Bool := (vget m k).isSome

/-- `m.set(k, v)`: updates in place if the key is present, else appends. -/
def vset {α : Type} : VMap α → String → α → VMap α
  | [], k, v => [(k, v)]
  | (k', v') :: rest, k, v =>
    if k' = k then (k, v) :: rest else (k', v') :: vset rest k v

/-- `m.delete(k)` on a unique-key map. -/
def vdel {α : Type} : VMap α → String → VMap α
  | [], _ => []
  | (k', v) :: rest, k => if k' = k then vdel rest k else (k', v) :: vdel rest k

/-- `set.add(x)` on a JS `Set<string>`: appends unless already present. -/
def sadd (s : List String) (x : String) : List String := if x ∈ s then s else s ++ [x]

/-! ## Data model (`StudioMessage.tsx`, interfaces around line 1175) -/

/-- `Omit<StudioFile, 'path'>`: the value stored in the VFS map. -/
structure FileEntry where
  content : String
  language : String
  deriving DecidableEq, Repr

/-- `GitCommit`.  `id`/`timestamp` are opaque fresh values (see header);
`parentId = none` models both `null` and the falsy `''`. -/
structure GitCommit where
  id : Nat
  message : String
  author : String
  timestamp : Nat
  files : VMap FileEntry
  parentId : Option Nat
  deriving DecidableEq, Repr

/-- `Stash`.  `modified` maps a path to `(oldContent, newContent)`. -/
structure Stash where
  id : Nat
  message : String
  branch : String
  headCommitId : Nat
  modified : VMap (String × String)
  added : VMap FileEntry
  deleted : VMap FileEntry
  staged : List String
  deriving DecidableEq, Repr

/-- One transcript line: an echoed command (rendered with the prompt) or
an output block. -/
inductive Line where
  | cmd (s : String)
  | out (s : String)
  deriving DecidableEq, Repr

/-- The `SimulatedTerminal` state (the `useState` atoms the interpreter
touches; command history and the autocomplete timer are handled
separately).  `fresh` is the deterministic supply for commit ids and
timestamps. -/
structure TermState where
  lines : List Line
  cwd : String
  files : VMap FileEntry
  gitInit : Bool
  stagedFiles : List String
  commits : List GitCommit
  heads : VMap (Option Nat)
  currentBranch : String
  stashes : List Stash
  fresh : Nat
  deriving DecidableEq, Repr

/-- The initial component state (`useState` defaults). -/
def st0 : TermState :=
  { lines := [], cwd := "/", files := [], gitInit := false, stagedFiles := []
    commits := [], heads := [("main", none)], currentBranch := "main"
    stashes := [], fresh := 0 }

/-! ## Path resolver and VFS primitives -/

/-- `resolvePath` (source lines 1418-1431): purely lexical normalisation
of a possibly-relative path against the cwd. -/
def resolvePath (cwd targetPath : String) : String :=
  if targetPath = "" then cwd
  else
    let base := if strStarts targetPath "/" then targetPath else cwd ++ "/" ++ targetPath
    let parts := ((splitChar '/' base.data).map (fun l => (⟨l⟩ : String))).filter (· ≠ "")
    let resolved := parts.foldl
      (fun acc part =>
        if part = ".." then acc.dropLast
        else if part = "." then acc
        else acc ++ [part])
      ([] : List String)
    "/" ++ String.intercalate "/" resolved

/-- `isDirectory` (source lines 1433-1440).  Note that the stored keys
carry no leading slash while the interpreter always feeds this function
a slash-prefixed resolved path; the comparison is kept exactly as in the
source. -/
def isDirectory (files : VMap FileEntry) (path : String) : Bool :=
  if path = "/" then true
  else
    let np := if strEnds path "/" then path else path ++ "/"
    files.any (fun e => strStarts e.1 np)

/-- Branch head lookup: `heads.get(b)`, with `undefined` and `''` both
behaving as "no commit" (falsy). -/
def headIdOf (heads : VMap (Option Nat)) (b : String) : Option Nat :=
  (vget heads b).getD none

/-- `getHeadCommit` (source lines 1412-1416). -/
def getHeadCommit (st : TermState) : Option GitCommit :=
  if st.gitInit then
    match headIdOf st.heads st.currentBranch with
    | none => none
    | some i => st.commits.find? (fun c => c.id == i)
  else none

/-- The snapshot a branch head denotes: the head commit's files, or the
empty VFS when the head is unset (or dangling, which the `find` treats
the same way). -/
def snapshotOf (commits : List GitCommit) (oid : Option Nat) : VMap FileEntry :=
  match oid with
  | none => []
  | some i => ((commits.find? (fun c => c.id == i)).map (·.files)).getD []

/-! ## Non-git command handlers.  Each returns the updated state (minus
the transcript, assembled by `runCommand`) and the `output` value —
`none` models JS `null`. -/

/-- `case 'ls'` (lines 1529-1551). -/
def doLs (st : TermState) (args : List String) : TermState × Option String :=
  let a := argD args 0
  let shown := if a = "" then "." else a
  let tp := resolvePath st.cwd shown
  if ¬ isDirectory st.files tp then
    (st, some ("ls: " ++ shown ++ ": No such file or directory"))
  else
    let pre := if tp = "/" then "" else strDrop tp 1 ++ "/"
    let entries := st.files.foldl
      (fun acc e =>
        if strStarts e.1 pre then
          let remaining := strDrop e.1 (strLen pre)
          let firstPart : String := ⟨((splitChar '/' remaining.data).headD [])⟩
          let entry := if strHas remaining '/' then firstPart ++ "/" else firstPart
          if entry ∈ acc then acc else acc ++ [entry]
        else acc)
      ([] : List String)
    (st, some (String.intercalate "\n" (sortStrs entries)))

/-- `case 'cd'` (lines 1552-1561). -/
def doCd (st : TermState) (args : List String) : TermState × Option String :=
  let a := argD args 0
  let tp := resolvePath st.cwd (if a = "" then "/" else a)
  if isDirectory st.files tp then ({ st with cwd := tp }, none)
  else (st, some ("cd: " ++ a ++ ": No such file or directory"))

/-- `case 'cat'` (lines 1562-1571). -/
def doCat (st : TermState) (args : List String) : TermState × Option String :=
  let a := argD args 0
  if a = "" then (st, some "usage: cat [filename]")
  else
    let key := strDrop (resolvePath st.cwd a) 1
    match vget st.files key with
    | some f => (st, some f.content)
    | none => (st, some ("cat: " ++ a ++ ": No such file or directory"))

/-- `case 'mkdir'` (lines 1572-1587): the conflict test is
`isDirectory(targetPath) || newFiles.has(targetPath.substring(1) + '/.gitkeep')`;
the exact file key itself is never consulted. -/
def doMkdir (st : TermState) (args : List String) : TermState × Option String :=
  let a := argD args 0
  if a = "" then (st, some "usage: mkdir [dirname]")
  else
    let tp := resolvePath st.cwd a
    let key := strDrop tp 1 ++ "/.gitkeep"
    if isDirectory st.files tp || vhas st.files key then
      (st, some ("mkdir: " ++ a ++ ": File exists"))
    else
      ({ st with files := vset st.files key ⟨"", "text"⟩ }, none)

/-- `case 'rm'` (lines 1588-1617). -/
def doRm (st : TermState) (args : List String) : TermState × Option String :=
  let a := argD args 0
  if a = "" then (st, some "usage: rm [file_or_directory]")
  else
    let tp := resolvePath st.cwd a
    let key := strDrop tp 1
    if isDirectory st.files tp then
      let hit := fun (p : String) =>
        strStarts p (key ++ "/") || p = key ++ "/.gitkeep" || p = key
      if st.files.any (fun e => hit e.1) then
        ({ st with files := st.files.filter (fun e => ¬ hit e.1) }, none)
      else (st, some ("rm: " ++ a ++ ": No such file or directory"))
    else if vhas st.files key then ({ st with files := vdel st.files key }, none)
    else (st, some ("rm: " ++ a ++ ": No such file or directory"))

/-! ## Git subcommand handlers (`case 'git'`, lines 1618-1937) -/

/-- `case 'init'` (lines 1625-1632).  Stashes are untouched. -/
def doGitInit (st : TermState) : TermState × Option String :=
  ({ st with gitInit := true, heads := [("main", none)], currentBranch := "main"
             commits := [], stagedFiles := [] },
   some "Initialized empty Git repository.")

/-- `case 'add'` (lines 1633-1659). -/
def doGitAdd (st : TermState) (args : List String) : TermState × Option String :=
  let fileToAdd := argD args 1
  if fileToAdd = "" then
    (st, some "Nothing specified, nothing added.\nMaybe you wanted to say 'git add .'?")
  else
    let lastCommitFiles := ((getHeadCommit st).map (·.files)).getD []
    if fileToAdd = "." then
      let s1 := st.files.foldl (fun s e => sadd s e.1) st.stagedFiles
      let s2 := lastCommitFiles.foldl
        (fun s e => if vhas st.files e.1 then s else sadd s e.1) s1
      ({ st with stagedFiles := s2 }, some "Staged all changes.")
    else
      let resolvedFile := strDrop (resolvePath st.cwd fileToAdd) 1
      if vhas st.files resolvedFile || vhas lastCommitFiles resolvedFile then
        ({ st with stagedFiles := sadd st.stagedFiles resolvedFile },
         some ("Staged '" ++ fileToAdd ++ "'."))
      else
        (st, some ("fatal: pathspec '" ++ fileToAdd ++ "' did not match any files"))

/-- One staged path applied to the snapshot being built (`stagedFiles.forEach`
body, lines 1670-1676). -/
def applyStaged (work : VMap FileEntry) (m : VMap FileEntry) (p : String) : VMap FileEntry :=
  match vget work p with
  | some v => vset m p v
  | none => vdel m p

/-- `case 'commit'` (lines 1660-1696). -/
def doGitCommit (st : TermState) (args : List String) : TermState × Option String :=
  if argD args 1 = "-m" ∧ argD args 2 ≠ "" then
    if st.stagedFiles.length = 0 then
      (st, some "nothing to commit, working tree clean")
    else
      let message := stripQuotes (String.intercalate " " (args.drop 2))
      let parentCommit := getHeadCommit st
      let filesToCommit := st.stagedFiles.foldl (applyStaged st.files)
        ((parentCommit.map (·.files)).getD [])
      let newCommit : GitCommit :=
        { id := st.fresh, message := message, author := "User <user@example.com>"
          timestamp := st.fresh, files := filesToCommit
          parentId := parentCommit.map (·.id) }
      ({ st with commits := st.commits ++ [newCommit]
                 heads := vset st.heads st.currentBranch (some newCommit.id)
                 stagedFiles := [], fresh := st.fresh + 1 },
       some ("[" ++ st.currentBranch ++ " "
             ++ (if parentCommit.isNone then "(root-commit) " else "")
             ++ toString newCommit.id ++ "] " ++ message
             ++ "\n " ++ toString st.stagedFiles.length ++ " files changed"))
  else (st, some "usage: git commit -m \"commit message\"")

/-- The `log` walk (lines 1698-1706).  The JS `while` loop has no fuel;
on the acyclic histories the interpreter builds, a fuel of
`commits.length + 1` is never exhausted. -/
def logWalk (commits : List GitCommit) (headId : Option Nat) :
    Nat → Option Nat → List String
  | 0, _ => []
  | _, none => []
  | fuel + 1, some i =>
    match commits.find? (fun c => c.id == i) with
    | none => []
    | some c =>
      ("commit " ++ toString c.id
        ++ (if headId = some c.id then " (HEAD -> branch)" else "")
        ++ "\nAuthor: " ++ c.author ++ "\nDate:   " ++ toString c.timestamp
        ++ "\n\n\t" ++ c.message)
        :: logWalk commits headId fuel c.parentId

/-- `case 'log'` (lines 1697-1709). -/
def doGitLog (st : TermState) : TermState × Option String :=
  let headId := headIdOf st.heads st.currentBranch
  let entries := logWalk st.commits headId (st.commits.length + 1) headId
  let output := String.intercalate "\n\n" entries
  (st, some (if output = "" then "No commits yet." else output))

/-- `case 'branch'` (lines 1710-1723). -/
def doGitBranch (st : TermState) (args : List String) : TermState × Option String :=
  let name := argD args 1
  if name ≠ "" then
    if vhas st.heads name then
      (st, some ("fatal: A branch named '" ++ name ++ "' already exists."))
    else
      ({ st with heads := vset st.heads name (headIdOf st.heads st.currentBranch) },
       some ("Branch '" ++ name ++ "' created."))
  else
    (st, some (String.intercalate "\n"
      ((sortStrs (st.heads.map (·.1))).map
        (fun b => if b = st.currentBranch then "* " ++ b else "  " ++ b))))

/-- `case 'checkout'` (lines 1724-1742): wholesale working-tree
replacement, no merge with uncommitted changes. -/
def doGitCheckout (st : TermState) (args : List String) : TermState × Option String :=
  let branchName := argD args 1
  if branchName = "" then (st, some "usage: git checkout <branch>")
  else if ¬ vhas st.heads branchName then
    (st, some ("error: pathspec '" ++ branchName ++ "' did not match any file(s) known to git"))
  else
    ({ st with currentBranch := branchName
               files := snapshotOf st.commits (headIdOf st.heads branchName)
               stagedFiles := [] },
     some ("Switched to branch '" ++ branchName ++ "'"))

/-- The rebase ancestor walk (lines 1750-1752): collect the ids reachable
from the target head through `parentId` (stopping at a dangling id, which
contributes itself and ends the walk, exactly as the JS loop does). -/
def ancestorWalk (commits : List GitCommit) : Nat → Option Nat → List Nat
  | 0, _ => []
  | _, none => []
  | fuel + 1, some i =>
    i :: (match commits.find? (fun c => c.id == i) with
          | some c => ancestorWalk commits fuel c.parentId
          | none => [])

/-- The rebase collection walk (lines 1754-1760): walk back from the
current head, `unshift`ing every commit until one lies in the ancestor
set; the returned list is oldest-first. -/
def replayWalk (commits : List GitCommit) : Nat → Option Nat → List Nat → List GitCommit
  | 0, _, _ => []
  | _, none, _ => []
  | fuel + 1, some i, hist =>
    if hist.contains i then []
    else
      match commits.find? (fun c => c.id == i) with
      | none => []
      | some c => replayWalk commits fuel c.parentId hist ++ [c]

/-- The replay loop (lines 1764-1776): re-create each collected commit
with a fresh id and timestamp, chaining `parentId` onto the previous
replayed commit (initially the target head).  Returns the replayed
commits, the last replayed id, and the advanced fresh counter. -/
def replayLoop (fresh : Nat) (lastId : Option Nat) :
    List GitCommit → List GitCommit × Option Nat × Nat
  | [] => ([], lastId, fresh)
  | c :: cs =>
    let nc : GitCommit := { c with id := fresh, parentId := lastId, timestamp := fresh }
    let r := replayLoop (fresh + 1) (some fresh) cs
    (nc :: r.1, r.2)

/-- `case 'rebase'` (lines 1743-1783). -/
def doGitRebase (st : TermState) (args : List String) : TermState × Option String :=
  let targetBranch := argD args 1
  if targetBranch = "" then (st, some "usage: git rebase <branch>")
  else if ¬ vhas st.heads targetBranch then
    (st, some ("fatal: invalid upstream '" ++ targetBranch ++ "'"))
  else if targetBranch = st.currentBranch then
    (st, some ("Current branch " ++ st.currentBranch ++ " is up to date."))
  else
    let targetCommitId := headIdOf st.heads targetBranch
    let hist := ancestorWalk st.commits (st.commits.length + 1) targetCommitId
    let commitsToReplay := replayWalk st.commits (st.commits.length + 1)
      (headIdOf st.heads st.currentBranch) hist
    if commitsToReplay = [] then
      (st, some ("Current branch " ++ st.currentBranch ++ " is up to date."))
    else
      let r := replayLoop st.fresh targetCommitId commitsToReplay
      let newCommits := st.commits ++ r.1
      let newHead : Option GitCommit :=
        match r.2.1 with
        | none => none
        | some i => newCommits.find? (fun c => c.id == i)
      ({ st with commits := newCommits
                 heads := vset st.heads st.currentBranch r.2.1
                 files := ((newHead.map (·.files)).getD [])
                 fresh := r.2.2 },
       some ("Successfully rebased and updated " ++ st.currentBranch ++ "."))

/-- `case 'stash'` (lines 1784-1816): unconditional stash *push*.  This
case matches whenever `args[0] === 'stash'`, so `git stash pop`,
`git stash apply` and `git stash list` all land here as well — the
pop/apply/list code in the `default` case is unreachable for them. -/
def doGitStashPush (st : TermState) : TermState × Option String :=
  match getHeadCommit st with
  | none => (st, some "Cannot stash without a commit.")
  | some headCommit =>
    let added := st.files.foldl
      (fun m e => if vhas headCommit.files e.1 then m else vset m e.1 e.2)
      ([] : VMap FileEntry)
    let modified := st.files.foldl
      (fun m e =>
        match vget headCommit.files e.1 with
        | some hf => if hf.content ≠ e.2.content then vset m e.1 (hf.content, e.2.content) else m
        | none => m)
      ([] : VMap (String × String))
    let deleted := headCommit.files.foldl
      (fun m e => if vhas st.files e.1 then m else vset m e.1 e.2)
      ([] : VMap FileEntry)
    if added = [] ∧ modified = [] ∧ deleted = [] then
      (st, some "No local changes to save")
    else
      let msg := "WIP on " ++ st.currentBranch ++ ": "
        ++ ⟨(toString headCommit.id).data.take 7⟩ ++ " " ++ headCommit.message
      let newStash : Stash :=
        { id := st.stashes.length, message := msg, branch := st.currentBranch
          headCommitId := headCommit.id, modified := modified, added := added
          deleted := deleted, staged := st.stagedFiles }
      ({ st with stashes := newStash :: st.stashes, files := headCommit.files
                 stagedFiles := [] },
       some ("Saved working directory and index state " ++ msg))

/-- `case 'status'` (lines 1817-1877). -/
def doGitStatus (st : TermState) : TermState × Option String :=
  let lastCommitFiles := ((getHeadCommit st).map (·.files)).getD []
  let cls := st.files.foldl
    (fun (acc : List String × List String × List String × List String) e =>
      let (sn, sm, mn, un) := acc
      if strEnds e.1 "/.gitkeep" then acc
      else
        match vget lastCommitFiles e.1 with
        | none =>
          if e.1 ∈ st.stagedFiles then (sn ++ [e.1], sm, mn, un)
          else (sn, sm, mn, un ++ [e.1])
        | some lcf =>
          if e.2.content ≠ lcf.content then
            if e.1 ∈ st.stagedFiles then (sn, sm ++ [e.1], mn, un)
            else (sn, sm, mn ++ [e.1], un)
          else acc)
    ([], [], [], [])
  let dels := lastCommitFiles.foldl
    (fun (acc : List String × List String) e =>
      if vhas st.files e.1 then acc
      else if e.1 ∈ st.stagedFiles then (acc.1 ++ [e.1], acc.2)
      else (acc.1, acc.2 ++ [e.1]))
    ([], [])
  let stagedNew := cls.1
  let stagedModified := cls.2.1
  let modifiedNotStaged := cls.2.2.1
  let untracked := cls.2.2.2
  let stagedDeleted := dels.1
  let deletedNotStaged := dels.2
  let hasStaged := stagedNew.length + stagedModified.length + stagedDeleted.length > 0
  let hasNotStaged := modifiedNotStaged.length + deletedNotStaged.length > 0
  let s1 := "On branch " ++ st.currentBranch ++ "\n\n"
  let s2 := if hasStaged then
      s1 ++ "Changes to be committed:\n"
      ++ String.join (stagedNew.map (fun p => "\t<span class=\"text-green-400\">new file:   " ++ p ++ "</span>\n"))
      ++ String.join (stagedModified.map (fun p => "\t<span class=\"text-green-400\">modified:   " ++ p ++ "</span>\n"))
      ++ String.join (stagedDeleted.map (fun p => "\t<span class=\"text-green-400\">deleted:    " ++ p ++ "</span>\n"))
      ++ "\n"
    else s1
  let s3 := if hasNotStaged then
      s2 ++ "Changes not staged for commit:\n"
      ++ String.join (modifiedNotStaged.map (fun p => "\t<span class=\"text-red-400\">modified:   " ++ p ++ "</span>\n"))
      ++ String.join (deletedNotStaged.map (fun p => "\t<span class=\"text-red-400\">deleted:    " ++ p ++ "</span>\n"))
      ++ "\n"
    else s2
  let s4 := if untracked.length > 0 then
      s3 ++ "Untracked files:\n"
      ++ String.join (untracked.map (fun p => "\t<span class=\"text-red-400\">" ++ p ++ "</span>\n"))
      ++ "\n"
    else s3
  let s5 := if ¬ hasStaged ∧ ¬ hasNotStaged ∧ untracked.length = 0 then
      s4 ++ "nothing to commit, working tree clean"
    else s4
  (st, some (strTrim s5))

/-- The reachable part of the `default` case (lines 1878-1933): a
subcommand that starts with `stash@` applies (and for a token containing
`pop`, drops) the most recent stash.  The `subCommand === 'stash'`
alternatives further down are dead code, shadowed by `case 'stash'`. -/
def doGitStashAt (st : TermState) (sub : String) : TermState × Option String :=
  match st.stashes with
  | [] => (st, some "No stash found.")
  | s :: rest =>
    let f1 := s.added.foldl (fun m e => vset m e.1 e.2) st.files
    let f2 := s.modified.foldl
      (fun m e =>
        match vget m e.1 with
        | some file => vset m e.1 { file with content := e.2.2 }
        | none => m)
      f1
    let f3 := s.deleted.foldl (fun m e => vdel m e.1) f2
    if strHasSub sub "pop" then
      ({ st with files := f3, stagedFiles := s.staged, stashes := rest },
       some "Dropped refs/stash@\x7b0\x7d")
    else
      ({ st with files := f3, stagedFiles := s.staged },
       some ("On branch " ++ st.currentBranch
             ++ "\nChanges not staged for commit:\n... (changes applied)"))

/-- `case 'git'` (lines 1618-1937): subcommand dispatch with the
not-a-repository guard. -/
def doGit (st : TermState) (args : List String) : TermState × Option String :=
  let sub := argD args 0
  if ¬ st.gitInit ∧ sub ≠ "init" then
    (st, some "fatal: not a git repository (or any of the parent directories): .git")
  else if sub = "init" then doGitInit st
  else if sub = "add" then doGitAdd st args
  else if sub = "commit" then doGitCommit st args
  else if sub = "log" then doGitLog st
  else if sub = "branch" then doGitBranch st args
  else if sub = "checkout" then doGitCheckout st args
  else if sub = "rebase" then doGitRebase st args
  else if sub = "stash" then doGitStashPush st
  else if sub = "status" then doGitStatus st
  else if strStarts sub "stash@" then doGitStashAt st sub
  else (st, some ("'git " ++ sub ++ "' is not a git command. See 'git --help'."))

/-! ## The interpreter loop -/

/-- Dispatch one tokenized command (the `switch(command)` at line 1521).
Never touches the transcript; `clear`'s `setLines([])` is overwritten by
the trailing `setLines(newLines)` (see `runCommand`). -/
def dispatch (st : TermState) (command : String) (args : List String) :
    TermState × Option String :=
  if command = "clear" then (st, none)
  else if command = "help" then
    (st, some "Available commands: help, clear, ls, cd, cat, mkdir, rm, git")
  else if command = "ls" then doLs st args
  else if command = "cd" then doCd st args
  else if command = "cat" then doCat st args
  else if command = "mkdir" then doMkdir st args
  else if command = "rm" then doRm st args
  else if command = "git" then doGit st args
  else (st, some ("command not found: " ++ command))

/-- One Enter key-press (lines 1510-1948).  `newLines` is built from the
closure-captured `lines`, so in the `clear` case the earlier
`setLines([])` is lost: the final transcript is always the old transcript
plus the echoed command (plus the output when non-null and non-blank
after `trim`). -/
def runCommand (st : TermState) (input : String) : TermState :=
  if strTrim input = "" then st
  else
    let fullCommand := strTrim input
    let toks := tokenize fullCommand
    let r := dispatch st (toks.headD "") toks.tail
    let newLines := st.lines ++ [Line.cmd fullCommand]
      ++ (match r.2 with
          | some o => if strTrim o ≠ "" then [Line.out o] else []
          | none => [])
    { r.1 with lines := newLines }

/-! ## Autocompletion engine (Tab branch, lines 1448-1509) -/

/-- The fixed command-name table (line 1452). -/
def cmdNames : List String := ["clear", "help", "ls", "cd", "cat", "mkdir", "rm", "git"]

/-- The fixed git subcommand table (line 1453). -/
def gitSubNames : List String :=
  ["init", "add", "commit", "log", "branch", "status", "checkout", "rebase", "stash"]

/-- `input.split(' ')` (single-space separator, empties kept). -/
def splitSpaces (input : String) : List String :=
  (splitChar ' ' input.data).map (fun l => (⟨l⟩ : String))

/-- Context classification: the completion target is a path unless it is
the first token or the second token after `git`. -/
def tabIsPath (parts : List String) : Bool :=
  ¬ (parts.length = 1 ∨ (parts.headD "" = "git" ∧ parts.length = 2))

/-- Directory-entry enumeration for path completion (lines 1464-1480). -/
def tabEntries (files : VMap FileEntry) (cwd pathPre : String) : List String :=
  let targetDir := resolvePath cwd (if pathPre = "" then "." else pathPre)
  let dirPre := if targetDir = "/" then "" else strDrop targetDir 1 ++ "/"
  files.foldl
    (fun acc e =>
      if strStarts e.1 dirPre then
        let remaining := strDrop e.1 (strLen dirPre)
        if remaining = "" then acc
        else
          let entryName : String := ⟨(splitChar '/' remaining.data).headD []⟩
          let entry := entryName ++ (if strHas remaining '/' then "/" else "")
          if entry ∈ acc then acc else acc ++ [entry]
      else acc)
    ([] : List String)

/-- The candidate list for one completion key-press (lines 1450-1481). -/
def tabCandidates (files : VMap FileEntry) (cwd input : String) : List String :=
  let parts := splitSpaces input
  let currentPart := (parts.getLast?).getD ""
  if parts.length = 1 then cmdNames.filter (fun c => strStarts c currentPart)
  else if parts.headD "" = "git" ∧ parts.length = 2 then
    gitSubNames.filter (fun c => strStarts c currentPart)
  else
    (tabEntries files cwd (uptoSlash currentPart)).filter
      (fun e => strStarts e (afterSlash currentPart))

/-- One completion key-press (lines 1483-1509): returns the new input
line, the new repeat-window timestamp, and the candidate listing shown on
a repeated press. -/
def applyTab (files : VMap FileEntry) (cwd input : String)
    (lastTabPressTime now : Nat) : String × Nat × Option String :=
  let parts := splitSpaces input
  let currentPart := (parts.getLast?).getD ""
  let matchingEntries := tabCandidates files cwd input
  if matchingEntries.length = 1 then
    let completion := matchingEntries.headD ""
    let parts2 := parts.set (parts.length - 1) (uptoSlash currentPart ++ completion)
    let trailingChar := if strEnds completion "/" then "" else " "
    (String.intercalate " " parts2 ++ trailingChar, 0, none)
  else if matchingEntries.length > 1 then
    if now - lastTabPressTime < 500 then
      (input, now, some (String.intercalate "   " matchingEntries))
    else
      let common := lcpAll matchingEntries
      let partName := if tabIsPath parts then afterSlash currentPart else currentPart
      if strLen common > strLen partName then
        (String.intercalate " " (parts.set (parts.length - 1) (uptoSlash currentPart ++ common)),
         now, none)
      else (input, now, none)
  else (input, 0, none)

/-! ## Specification-side notions used to state the claims -/

/-- A complete, well-founded parent chain: `Chain commits oid L` says the
walk that starts at `oid` and repeatedly follows `parentId` through
`commits` visits exactly the commits of `L` and ends at `none`. -/
inductive Chain (commits : List GitCommit) : Option Nat → List GitCommit → Prop where
  | nil : Chain commits none []
  | cons {i : Nat} {c : GitCommit} {L : List GitCommit} :
      commits.find? (fun c' => c'.id == i) = some c →
      Chain commits c.parentId L →
      Chain commits (some i) (c :: L)

/-- The branch-table invariant of the spec: every head value is either
unset (the source's empty string) or the id of a stored commit. -/
def HeadsInv (st : TermState) : Prop :=
  ∀ e ∈ st.heads, e.2 = none ∨ ∃ c ∈ st.commits, e.2 = some c.id

/-- A branch head that, when set, resolves to a stored commit. -/
def headResolvable (st : TermState) (b : String) : Bool :=
  match headIdOf st.heads b with
  | none => true
  | some i => (st.commits.find? (fun c => c.id == i)).isSome

/-- All stored ids and timestamps lie below the fresh counter (true of
every state the interpreter builds; it makes "fresh" provable). -/
def IdsBelow (st : TermState) : Prop :=
  ∀ c ∈ st.commits, c.id < st.fresh ∧ c.timestamp < st.fresh


/-! ## The replay source in the claim's terms, and concrete states -/

/-- The commits a rebase replays, in the words of the spec: walking back
from the current branch's head (chain `CL`, newest first), the commits
whose ids are not in the ancestor set of the target's head (the ids of
chain `TL`), collected oldest-first. -/
def toReplaySpec (TL CL : List GitCommit) : List GitCommit :=
  (CL.takeWhile (fun c => !((TL.map (·.id)).contains c.id))).reverse

def st1c : TermState := { st0 with lines := [Line.out "welcome"] }

def st2cex : TermState := { st0 with files := [("foo", ⟨"x", "text"⟩)] }

def st3 : TermState :=
  { st0 with gitInit := true, files := [("a.txt", ⟨"hello", "text"⟩)]
             stagedFiles := ["a.txt"] }

def cm0 : GitCommit :=
  { id := 0, message := "base", author := "User <user@example.com>", timestamp := 0
    files := [("f", ⟨"0", "text"⟩)], parentId := none }

def cm1 : GitCommit :=
  { id := 1, message := "onmain", author := "User <user@example.com>", timestamp := 1
    files := [("f", ⟨"1", "text"⟩)], parentId := some 0 }

def cm2 : GitCommit :=
  { id := 2, message := "onfeat", author := "User <user@example.com>", timestamp := 2
    files := [("g", ⟨"2", "text"⟩)], parentId := some 0 }

def st5 : TermState :=
  { st0 with gitInit := true, commits := [cm0, cm1, cm2]
             heads := [("main", some 1), ("feature", some 2)]
             currentBranch := "feature", files := [("g", ⟨"2", "text"⟩)], fresh := 3 }

def c6commit : GitCommit :=
  { id := 0, message := "first", author := "User <user@example.com>", timestamp := 0
    files := [("a.txt", ⟨"v1", "text"⟩)], parentId := none }

def st6 : TermState :=
  { st0 with gitInit := true, files := [("a.txt", ⟨"v2", "text"⟩)]
             commits := [c6commit], heads := [("main", some 0)]
             stagedFiles := ["a.txt"], fresh := 1 }

def c7commit : GitCommit :=
  { id := 0, message := "base", author := "User <user@example.com>", timestamp := 0
    files := [("f.txt", ⟨"hello", "text"⟩)], parentId := none }

def st7 : TermState :=
  { st0 with gitInit := true, files := [("scratch.txt", ⟨"junk", "text"⟩)]
             stagedFiles := ["scratch.txt"], commits := [c7commit]
             heads := [("main", some 0), ("dev", some 0)], currentBranch := "main"
             fresh := 1 }

def files9 : VMap FileEntry :=
  [("src/index.js", ⟨"export {}", "javascript"⟩), ("src/app.js", ⟨"app", "javascript"⟩)]

/-! ## Lemmas about the map model -/

theorem vget_vset_self {α : Type} (m : VMap α) (k : String) (v : α) :
    vget (vset m k v) k = some v := by
  induction m with
  | nil => simp [vset, vget]
  | cons e rest ih =>
    obtain ⟨k', v'⟩ := e
    by_cases h : k' = k
    · simp [vset, h, vget]
    · simp [vset, h, vget, ih]

theorem vget_vset_ne {α : Type} (m : VMap α) (k q : String) (v : α) (h : q ≠ k) :
    vget (vset m k v) q = vget m q := by
  induction m with
  | nil => simp [vset, vget, Ne.symm h]
  | cons e rest ih =>
    obtain ⟨k', v'⟩ := e
    by_cases h1 : k' = k
    · subst h1
      simp [vset, vget, Ne.symm h]
    · simp [vset, h1, vget, ih]

theorem vset_not_has {α : Type} (m : VMap α) (k : String) (v : α)
    (h : vhas m k = false) : vset m k v = m ++ [(k, v)] := by
  induction m with
  | nil => simp [vset]
  | cons e rest ih =>
    obtain ⟨k', v'⟩ := e
    by_cases h1 : k' = k
    · subst h1
      simp [vhas, vget] at h
    · simp [vhas, vget, h1] at h
      simp [vset, h1, ih (by simp [vhas, h])]

theorem mem_vset {α : Type} (m : VMap α) (k : String) (v : α) (e : String × α)
    (he : e ∈ vset m k v) : e ∈ m ∨ e = (k, v) := by
  induction m with
  | nil => simp [vset] at he; simp [he]
  | cons e' rest ih =>
    obtain ⟨k', v'⟩ := e'
    by_cases h1 : k' = k
    · subst h1
      simp [vset] at he
      rcases he with he | he
      · exact Or.inr he
      · exact Or.inl (List.mem_cons_of_mem _ he)
    · simp [vset, h1] at he
      rcases he with he | he
      · exact Or.inl (by simp [he])
      · rcases ih he with h2 | h2
        · exact Or.inl (List.mem_cons_of_mem _ h2)
        · exact Or.inr h2

theorem vget_mem {α : Type} (m : VMap α) (k : String) (v : α)
    (h : vget m k = some v) : (k, v) ∈ m := by
  induction m with
  | nil => simp [vget] at h
  | cons e rest ih =>
    obtain ⟨k', v'⟩ := e
    by_cases h1 : k' = k
    · subst h1
      simp [vget] at h
      simp [h]
    · simp [vget, h1] at h
      exact List.mem_cons_of_mem _ (ih h)

theorem vget_vdel {α : Type} (m : VMap α) (k q : String) :
    vget (vdel m k) q = if q = k then none else vget m q := by
  induction m with
  | nil => simp [vdel, vget]
  | cons e rest ih =>
    obtain ⟨k', v'⟩ := e
    by_cases h1 : k' = k
    · subst h1
      rw [show vdel ((k', v') :: rest) k' = vdel rest k' by simp [vdel]]
      rw [ih]
      by_cases h2 : q = k'
      · simp [h2]
      · simp only [vget, h2, if_false]
        rw [if_neg (fun hh : k' = q => h2 hh.symm)]
    · rw [show vdel ((k', v') :: rest) k = (k', v') :: vdel rest k by simp [vdel, h1]]
      by_cases h2 : k' = q
      · subst h2
        simp [vget, fun hh : k' = k => h1 hh]
      · simp [vget, h2, ih]

theorem length_vset_not_has {α : Type} (m : VMap α) (k : String) (v : α)
    (h : vhas m k = false) : (vset m k v).length = m.length + 1 := by
  rw [vset_not_has m k v h]
  simp

/-- Looking up a path after the staged paths have been applied
(`stagedFiles.forEach` in the commit handler): a staged path reads from
the working VFS (removal when absent there), any other path reads from
the base snapshot. -/
theorem vget_foldl_applyStaged (work : VMap FileEntry) (staged : List String)
    (base : VMap FileEntry) (p : String) :
    vget (staged.foldl (applyStaged work) base) p =
      if p ∈ staged then vget work p else vget base p := by
  induction staged generalizing base with
  | nil => simp
  | cons q rest ih =>
    simp only [List.foldl_cons]
    rw [ih]
    by_cases hq : p = q
    · subst hq
      by_cases hr : p ∈ rest
      · simp [hr]
      · simp only [hr, if_false, List.mem_cons, true_or, if_true]
        unfold applyStaged
        cases hwork : vget work p with
        | none => simp [vget_vdel, hwork]
        | some v => simp [vget_vset_self, hwork]
    · by_cases hr : p ∈ rest
      · simp [hr, hq]
      · have hmem : ¬ p ∈ q :: rest := by simp [hq, hr]
        simp only [hr, if_false, hmem]
        unfold applyStaged
        cases hwq : vget work q with
        | none => simp [vget_vdel, hq]
        | some v => simp [vget_vset_ne _ _ _ _ hq]

/-! ## Preservation of the branch-table invariant -/

theorem headsInv_transport {st st' : TermState} (hh : st'.heads = st.heads)
    (hc : ∀ c ∈ st.commits, c ∈ st'.commits) (h : HeadsInv st) : HeadsInv st' := by
  intro e he
  rw [hh] at he
  rcases h e he with h0 | ⟨c, hc', he2⟩
  · exact Or.inl h0
  · exact Or.inr ⟨c, hc c hc', he2⟩

theorem headIdOf_inv (st : TermState) (b : String) (h : HeadsInv st) :
    headIdOf st.heads b = none ∨ ∃ c ∈ st.commits, headIdOf st.heads b = some c.id := by
  unfold headIdOf
  cases hv : vget st.heads b with
  | none => simp
  | some w =>
    have := h (b, w) (vget_mem _ _ _ hv)
    simpa using this

theorem replayLoop_lastId_cases (f : Nat) (l : Option Nat) (cs : List GitCommit) :
    (replayLoop f l cs).2.1 = l ∨
      ∃ c ∈ (replayLoop f l cs).1, (replayLoop f l cs).2.1 = some c.id := by
  induction cs generalizing f l with
  | nil => simp [replayLoop]
  | cons c cs ih =>
    rcases ih (f + 1) (some f) with h0 | ⟨c', hc', he⟩
    · right
      refine ⟨{ c with id := f, parentId := l, timestamp := f }, by simp [replayLoop], ?_⟩
      simp [replayLoop, h0]
    · right
      exact ⟨c', by simp [replayLoop]; exact Or.inr hc', by simp [replayLoop, he]⟩


theorem doLs_inv (st : TermState) (args : List String) (h : HeadsInv st) :
    HeadsInv (doLs st args).1 := by
  unfold doLs
  dsimp only
  repeat' split
  all_goals exact h

theorem doCd_inv (st : TermState) (args : List String) (h : HeadsInv st) :
    HeadsInv (doCd st args).1 := by
  unfold doCd
  dsimp only
  repeat' split
  all_goals exact h

theorem doCat_inv (st : TermState) (args : List String) (h : HeadsInv st) :
    HeadsInv (doCat st args).1 := by
  unfold doCat
  dsimp only
  repeat' split
  all_goals exact h

theorem doMkdir_inv (st : TermState) (args : List String) (h : HeadsInv st) :
    HeadsInv (doMkdir st args).1 := by
  unfold doMkdir
  dsimp only
  repeat' split
  all_goals exact h

theorem doRm_inv (st : TermState) (args : List String) (h : HeadsInv st) :
    HeadsInv (doRm st args).1 := by
  unfold doRm
  dsimp only
  repeat' split
  all_goals exact h

theorem doGitInit_inv (st : TermState) : HeadsInv (doGitInit st).1 := by
  intro e he
  simp [doGitInit] at he
  simp [he]

theorem doGitAdd_inv (st : TermState) (args : List String) (h : HeadsInv st) :
    HeadsInv (doGitAdd st args).1 := by
  unfold doGitAdd
  dsimp only
  repeat' split
  all_goals exact h

theorem doGitCommit_inv (st : TermState) (args : List String) (h : HeadsInv st) :
    HeadsInv (doGitCommit st args).1 := by
  unfold doGitCommit
  dsimp only
  split
  · split
    · exact h
    · intro e he
      rcases mem_vset _ _ _ _ he with hm | hm
      · rcases h e hm with h0 | ⟨c, hc, he2⟩
        · exact Or.inl h0
        · exact Or.inr ⟨c, List.mem_append_left _ hc, he2⟩
      · subst hm
        exact Or.inr ⟨_, List.mem_append_right _ (List.mem_singleton_self _), rfl⟩
  · exact h

theorem doGitLog_inv (st : TermState) (h : HeadsInv st) : HeadsInv (doGitLog st).1 := by
  unfold doGitLog
  dsimp only
  exact h

theorem doGitBranch_inv (st : TermState) (args : List String) (h : HeadsInv st) :
    HeadsInv (doGitBranch st args).1 := by
  unfold doGitBranch
  dsimp only
  split
  · split
    · exact h
    · intro e he
      rcases mem_vset _ _ _ _ he with hm | hm
      · exact h e hm
      · subst hm
        exact headIdOf_inv st st.currentBranch h
  · exact h

theorem doGitCheckout_inv (st : TermState) (args : List String) (h : HeadsInv st) :
    HeadsInv (doGitCheckout st args).1 := by
  unfold doGitCheckout
  dsimp only
  repeat' split
  all_goals exact h

theorem doGitRebase_inv (st : TermState) (args : List String) (h : HeadsInv st) :
    HeadsInv (doGitRebase st args).1 := by
  unfold doGitRebase
  dsimp only
  split
  · exact h
  · split
    · exact h
    · split
      · exact h
      · split
        · exact h
        · intro e he
          rcases mem_vset _ _ _ _ he with hm | hm
          · rcases h e hm with h0 | ⟨c, hc, he2⟩
            · exact Or.inl h0
            · exact Or.inr ⟨c, List.mem_append_left _ hc, he2⟩
          · subst hm
            rcases replayLoop_lastId_cases st.fresh (headIdOf st.heads (argD args 1))
                (replayWalk st.commits (st.commits.length + 1)
                  (headIdOf st.heads st.currentBranch)
                  (ancestorWalk st.commits (st.commits.length + 1)
                    (headIdOf st.heads (argD args 1)))) with h0 | ⟨c, hc, he2⟩
            · show _ = none ∨ _
              rw [h0]
              rcases headIdOf_inv st (argD args 1) h with h1 | ⟨c, hc, he2⟩
              · exact Or.inl h1
              · exact Or.inr ⟨c, List.mem_append_left _ hc, he2⟩
            · exact Or.inr ⟨c, List.mem_append_right _ hc, he2⟩

set_option maxHeartbeats 1000000 in
theorem doGitStashPush_inv (st : TermState) (h : HeadsInv st) :
    HeadsInv (doGitStashPush st).1 := by
  unfold doGitStashPush
  dsimp only
  repeat' split
  all_goals exact h

theorem doGitStatus_inv (st : TermState) (h : HeadsInv st) : HeadsInv (doGitStatus st).1 := by
  unfold doGitStatus
  dsimp only
  exact h

set_option maxHeartbeats 1000000 in
theorem doGitStashAt_inv (st : TermState) (sub : String) (h : HeadsInv st) :
    HeadsInv (doGitStashAt st sub).1 := by
  unfold doGitStashAt
  dsimp only
  repeat' split
  all_goals exact h

set_option maxHeartbeats 1600000 in
theorem doGit_inv (st : TermState) (args : List String) (h : HeadsInv st) :
    HeadsInv (doGit st args).1 := by
  unfold doGit
  dsimp only
  repeat' split
  all_goals
    first
      | exact h
      | exact doGitInit_inv st
      | exact doGitAdd_inv st args h
      | exact doGitCommit_inv st args h
      | exact doGitLog_inv st h
      | exact doGitBranch_inv st args h
      | exact doGitCheckout_inv st args h
      | exact doGitRebase_inv st args h
      | exact doGitStashPush_inv st h
      | exact doGitStatus_inv st h
      | exact doGitStashAt_inv st (argD args 0) h

theorem dispatch_inv (st : TermState) (c : String) (args : List String) (h : HeadsInv st) :
    HeadsInv (dispatch st c args).1 := by
  unfold dispatch
  repeat' split
  all_goals
    first
      | exact h
      | exact doLs_inv st args h
      | exact doCd_inv st args h
      | exact doCat_inv st args h
      | exact doMkdir_inv st args h
      | exact doRm_inv st args h
      | exact doGit_inv st args h

theorem runCommand_inv (st : TermState) (input : String) (h : HeadsInv st) :
    HeadsInv (runCommand st input) := by
  unfold runCommand
  dsimp only
  split
  · exact h
  · exact dispatch_inv st _ _ h

/-! ## Further list helpers -/

theorem mem_vset_self {α : Type} (m : VMap α) (k : String) (v : α) :
    (k, v) ∈ vset m k v := by
  induction m with
  | nil => simp [vset]
  | cons e rest ih =>
    obtain ⟨k', v'⟩ := e
    by_cases h : k' = k
    · simp [vset, h]
    · simp [vset, h]
      exact Or.inr ih

theorem find?_append_of_none {α : Type} (l m : List α) (p : α → Bool)
    (h : l.find? p = none) : (l ++ m).find? p = m.find? p := by
  induction l with
  | nil => simp
  | cons a t ih =>
    cases hp : p a with
    | true =>
      rw [List.find?_cons_of_pos _ hp] at h
      exact absurd h (by simp)
    | false =>
      rw [List.find?_cons_of_neg _ (by simp [hp])] at h
      rw [List.cons_append, List.find?_cons_of_neg _ (by simp [hp])]
      exact ih h

theorem setLast_eq_dropLast_append {α : Type} (l : List α) (x : α) (h : l ≠ []) :
    l.set (l.length - 1) x = l.dropLast ++ [x] := by
  induction l with
  | nil => exact absurd rfl h
  | cons a t ih =>
    cases t with
    | nil => simp
    | cons b t' =>
      have ht : (b :: t') ≠ [] := by simp
      have hlen : (a :: b :: t').length - 1 = ((b :: t').length - 1) + 1 := by
        simp
      rw [hlen]
      show a :: (b :: t').set ((b :: t').length - 1) x = (a :: b :: t').dropLast ++ [x]
      rw [ih ht]
      simp

theorem splitChar_ne_nil (c : Char) (l : List Char) : splitChar c l ≠ [] := by
  induction l with
  | nil => simp [splitChar]
  | cons x xs ih =>
    unfold splitChar
    dsimp only
    split
    · simp
    · split
      · simp
      · simp

theorem splitSpaces_ne_nil (s : String) : splitSpaces s ≠ [] := by
  unfold splitSpaces
  intro h
  exact splitChar_ne_nil ' ' s.data (by simpa using h)

/-! ## C1: the `clear` command and the transcript -/

/-- C1: the spec says `clear` empties the transcript and produces no
output line.  In the code, the `setLines([])` inside `case 'clear'` is
overwritten by the unconditional trailing `setLines(newLines)`, which is
built from the closure-captured `lines`; evaluated at a transcript
holding one welcome line, executing `clear` yields the old transcript
plus the echoed `clear` command — not the empty transcript. -/
theorem clear_keeps_old_transcript :
    (runCommand st1c "clear").lines = [Line.out "welcome", Line.cmd "clear"] ∧
      (runCommand st1c "clear").lines ≠ [] := by
  constructor
  · decide
  · decide

/-! ## C2: the `mkdir` conflict condition -/

/-- C2 counterexample: the claim says `mkdir p` fails with "File exists"
if the exact file key `p` exists in the VFS.  With the file `foo`
present (and `foo` not a directory), `mkdir foo` does not fail: it
reports no error and inserts the placeholder `foo/.gitkeep`. -/
theorem mkdir_ignores_exact_file_key :
    vhas st2cex.files "foo" = true ∧
      isDirectory st2cex.files (resolvePath st2cex.cwd "foo") = false ∧
      (doMkdir st2cex ["foo"]).2 = none ∧
      vget (doMkdir st2cex ["foo"]).1.files "foo/.gitkeep" = some ⟨"", "text"⟩ := by
  refine ⟨by decide, by decide, by decide, by decide⟩

/-- C2 (amended): `mkdir p` fails with "File exists" iff the resolved
`p` is already a directory (the source's `isDirectory` check) or the
placeholder key `p/.gitkeep` exists in the VFS — the exact file key `p`
itself is not consulted; otherwise it inserts exactly one placeholder
entry at `p/.gitkeep` with empty content and leaves every other VFS
entry unchanged. -/
theorem mkdir_conflict_iff (st : TermState) (a : String) (ha : a ≠ "") :
    ((doMkdir st [a]).2 = some ("mkdir: " ++ a ++ ": File exists") ↔
      (isDirectory st.files (resolvePath st.cwd a) = true ∨
        vhas st.files (strDrop (resolvePath st.cwd a) 1 ++ "/.gitkeep") = true)) ∧
    (isDirectory st.files (resolvePath st.cwd a) = false →
      vhas st.files (strDrop (resolvePath st.cwd a) 1 ++ "/.gitkeep") = false →
      (doMkdir st [a]).2 = none ∧
      (doMkdir st [a]).1.files
          = st.files ++ [(strDrop (resolvePath st.cwd a) 1 ++ "/.gitkeep", ⟨"", "text"⟩)] ∧
      vget (doMkdir st [a]).1.files (strDrop (resolvePath st.cwd a) 1 ++ "/.gitkeep")
          = some ⟨"", "text"⟩ ∧
      (∀ q, q ≠ strDrop (resolvePath st.cwd a) 1 ++ "/.gitkeep" →
        vget (doMkdir st [a]).1.files q = vget st.files q) ∧
      (doMkdir st [a]).1.files.length = st.files.length + 1) := by
  have ha0 : argD [a] 0 = a := rfl
  constructor
  · unfold doMkdir
    rw [ha0, if_neg ha]
    by_cases hcond : (isDirectory st.files (resolvePath st.cwd a)
        || vhas st.files (strDrop (resolvePath st.cwd a) 1 ++ "/.gitkeep")) = true
    · rw [if_pos hcond]
      constructor
      · intro _
        exact (Bool.or_eq_true _ _).mp hcond
      · intro _
        rfl
    · rw [if_neg hcond]
      simp only [Bool.or_eq_true] at hcond
      constructor
      · intro hfalse
        exact absurd hfalse (by simp)
      · intro hor
        exact absurd hor hcond
  · intro h1 h2
    unfold doMkdir
    rw [ha0, if_neg ha, if_neg (by simp [h1, h2])]
    refine ⟨rfl, ?_, ?_, ?_, ?_⟩
    · exact vset_not_has _ _ _ h2
    · exact vget_vset_self _ _ _
    · intro q hq
      exact vget_vset_ne _ _ _ _ hq
    · exact length_vset_not_has _ _ _ h2

/-- C2 witness: the amended behaviour evaluated at the initial state and
path `foo`. -/
theorem mkdir_conflict_iff_witness :
    ("foo" : String) ≠ "" ∧
    (((doMkdir st0 ["foo"]).2 = some ("mkdir: " ++ "foo" ++ ": File exists") ↔
      (isDirectory st0.files (resolvePath st0.cwd "foo") = true ∨
        vhas st0.files (strDrop (resolvePath st0.cwd "foo") 1 ++ "/.gitkeep") = true)) ∧
    (isDirectory st0.files (resolvePath st0.cwd "foo") = false →
      vhas st0.files (strDrop (resolvePath st0.cwd "foo") 1 ++ "/.gitkeep") = false →
      (doMkdir st0 ["foo"]).2 = none ∧
      (doMkdir st0 ["foo"]).1.files
          = st0.files ++ [(strDrop (resolvePath st0.cwd "foo") 1 ++ "/.gitkeep", ⟨"", "text"⟩)] ∧
      vget (doMkdir st0 ["foo"]).1.files (strDrop (resolvePath st0.cwd "foo") 1 ++ "/.gitkeep")
          = some ⟨"", "text"⟩ ∧
      (∀ q, q ≠ strDrop (resolvePath st0.cwd "foo") 1 ++ "/.gitkeep" →
        vget (doMkdir st0 ["foo"]).1.files q = vget st0.files q) ∧
      (doMkdir st0 ["foo"]).1.files.length = st0.files.length + 1)) :=
  ⟨by decide, mkdir_conflict_iff st0 "foo" (by decide)⟩

/-! ## C6: stash push followed by `git stash pop` -/

/-- C6: the spec says `git stash` followed by `git stash pop` restores
the pre-stash working VFS and staging set and removes the stash.  In the
code, `case 'stash':` matches on `args[0]` alone, so `git stash pop` is
dispatched to the stash *push* handler and the pop/apply code in the
`default` case is unreachable; evaluated on a repository whose working
file differs from the head snapshot, the pop leaves the working VFS at
the head snapshot, the staging set empty and the stash still on the
stack, answering "No local changes to save". -/
theorem stash_pop_hits_push_branch :
    (runCommand st6 "git stash").files = [("a.txt", ⟨"v1", "text"⟩)] ∧
    (runCommand st6 "git stash").stashes.length = 1 ∧
    (runCommand (runCommand st6 "git stash") "git stash pop").stashes.length = 1 ∧
    (runCommand (runCommand st6 "git stash") "git stash pop").files
        = [("a.txt", ⟨"v1", "text"⟩)] ∧
    (runCommand (runCommand st6 "git stash") "git stash pop").files ≠ st6.files ∧
    (runCommand (runCommand st6 "git stash") "git stash pop").stagedFiles = [] ∧
    (runCommand (runCommand st6 "git stash") "git stash pop").lines.getLast?
        = some (Line.out "No local changes to save") := by
  refine ⟨by decide, by decide, by decide, by decide, by decide, by decide, by decide⟩

/-! ## C10: successful `mkdir` makes every ancestor a directory -/

/-- C10: whenever `mkdir` succeeds (no "File exists", no usage error), the
single inserted placeholder `key/.gitkeep` makes `isDirectory` true for
the resolved path and every ancestor prefix of it — no precondition that
the parent directories already exist is needed (the hypotheses mention
only success, not the presence of any ancestor). -/
theorem mkdir_creates_ancestor_dirs (st : TermState) (args : List String) (q : String)
    (hsucc : (doMkdir st args).2 = none)
    (hq : strStarts (strDrop (resolvePath st.cwd (argD args 0)) 1 ++ "/") (q ++ "/") = true) :
    isDirectory (doMkdir st args).1.files q = true := by
  simp only [doMkdir] at hsucc ⊢
  by_cases ha : argD args 0 = ""
  · rw [if_pos ha] at hsucc
    exact absurd hsucc (by simp)
  rw [if_neg ha] at hsucc ⊢
  by_cases hcond : (isDirectory st.files (resolvePath st.cwd (argD args 0))
      || vhas st.files (strDrop (resolvePath st.cwd (argD args 0)) 1 ++ "/.gitkeep")) = true
  · rw [if_pos hcond] at hsucc
    exact absurd hsucc (by simp)
  rw [if_neg hcond]
  show isDirectory
      (vset st.files (strDrop (resolvePath st.cwd (argD args 0)) 1 ++ "/.gitkeep")
        ⟨"", "text"⟩) q = true
  have hmem : ((strDrop (resolvePath st.cwd (argD args 0)) 1 ++ "/.gitkeep"),
      (⟨"", "text"⟩ : FileEntry)) ∈
        vset st.files (strDrop (resolvePath st.cwd (argD args 0)) 1 ++ "/.gitkeep")
          ⟨"", "text"⟩ := mem_vset_self _ _ _
  have hpre1 : (q.data ++ ['/']) <+:
      ((strDrop (resolvePath st.cwd (argD args 0)) 1).data ++ ['/']) := by
    have hx : ((q ++ "/").data).isPrefixOf
        ((strDrop (resolvePath st.cwd (argD args 0)) 1 ++ "/").data) = true := hq
    exact List.isPrefixOf_iff_prefix.mp hx
  have hpre2 : (q.data ++ ['/']) <+:
      ((strDrop (resolvePath st.cwd (argD args 0)) 1 ++ "/.gitkeep").data) := by
    refine hpre1.trans ?_
    refine ⟨".gitkeep".data, ?_⟩
    show ((strDrop (resolvePath st.cwd (argD args 0)) 1).data ++ ['/']) ++ ".gitkeep".data
        = (strDrop (resolvePath st.cwd (argD args 0)) 1).data ++ "/.gitkeep".data
    simp
  have hstart : strStarts (strDrop (resolvePath st.cwd (argD args 0)) 1 ++ "/.gitkeep")
      (if strEnds q "/" = true then q else q ++ "/") = true := by
    by_cases hend : strEnds q "/" = true
    · rw [if_pos hend]
      apply List.isPrefixOf_iff_prefix.mpr
      have hq1 : q.data <+: q.data ++ ['/'] := ⟨['/'], rfl⟩
      exact List.IsPrefix.trans hq1 hpre2
    · rw [if_neg hend]
      apply List.isPrefixOf_iff_prefix.mpr
      exact hpre2
  unfold isDirectory
  by_cases hroot : q = "/"
  · rw [if_pos hroot]
  · rw [if_neg hroot]
    dsimp only
    apply List.any_eq_true.mpr
    exact ⟨_, hmem, hstart⟩

/-- C10 witness: from the empty VFS, `mkdir a/b/c` succeeds and
afterwards `a`, `a/b` and `a/b/c` are all directories, though none of
the ancestors existed beforehand. -/
theorem mkdir_creates_ancestor_dirs_witness :
    (doMkdir st0 ["a/b/c"]).2 = none ∧
    st0.files = [] ∧
    isDirectory (doMkdir st0 ["a/b/c"]).1.files "a" = true ∧
    isDirectory (doMkdir st0 ["a/b/c"]).1.files "a/b" = true ∧
    isDirectory (doMkdir st0 ["a/b/c"]).1.files "a/b/c" = true :=
  ⟨by decide, rfl,
   mkdir_creates_ancestor_dirs st0 ["a/b/c"] "a" (by decide) (by decide),
   mkdir_creates_ancestor_dirs st0 ["a/b/c"] "a/b" (by decide) (by decide),
   mkdir_creates_ancestor_dirs st0 ["a/b/c"] "a/b/c" (by decide) (by decide)⟩

/-! ## C8: every branch head is unset or the id of a stored commit -/

/-- C8: in every state reachable from `git init` by any sequence of
commands, every value in the branch table is either unset (the source's
empty string, modelled `none`) or the id of a commit present in the
commit list. -/
theorem git_heads_reference_existing_commits (start : TermState) (ls : List String) :
    HeadsInv (List.foldl runCommand (runCommand start "git init") ls) := by
  have hd : ∀ s : TermState, dispatch s "git" ["init"] = doGitInit s := by
    intro s
    unfold dispatch
    rw [if_neg (by decide), if_neg (by decide), if_neg (by decide), if_neg (by decide),
        if_neg (by decide), if_neg (by decide), if_neg (by decide), if_pos rfl]
    unfold doGit
    dsimp only
    rw [if_neg (fun h => h.2 rfl), if_pos (show argD ["init"] 0 = "init" from rfl)]
  have hrun : runCommand start "git init" = { (doGitInit start).1 with
      lines := start.lines ++ [Line.cmd "git init"]
        ++ [Line.out "Initialized empty Git repository."] } := by
    unfold runCommand
    rw [if_neg (by decide)]
    dsimp only
    rw [show tokenize (strTrim "git init") = ["git", "init"] from by decide]
    dsimp only [List.headD, List.tail]
    rw [hd start]
    rfl
  have hbase : HeadsInv (runCommand start "git init") := by
    have h0 : HeadsInv (doGitInit start).1 := doGitInit_inv start
    refine headsInv_transport ?_ ?_ h0
    · rw [hrun]
    · intro c hc
      rw [hrun]
      exact hc
  have hstep : ∀ s : TermState, HeadsInv s → HeadsInv (List.foldl runCommand s ls) := by
    induction ls with
    | nil => intro s hs; exact hs
    | cons x xs ih =>
      intro s hs
      exact ih _ (runCommand_inv _ _ hs)
  exact hstep _ hbase

/-! ## C4: commit with empty staging is a no-op -/

/-- C4: with the repository initialized and the staging set empty,
`git commit -m <message>` answers "nothing to commit, working tree
clean" and returns the state unchanged: no commit is created and the
commit list, branch table, working VFS and staging set are untouched. -/
theorem commit_empty_staging_noop (st : TermState) (w : String) (ws : List String)
    (hinit : st.gitInit = true) (hempty : st.stagedFiles = []) (hw : w ≠ "") :
    doGit st ("commit" :: "-m" :: w :: ws)
      = (st, some "nothing to commit, working tree clean") := by
  unfold doGit
  dsimp only
  have hsub : argD ("commit" :: "-m" :: w :: ws) 0 = "commit" := rfl
  rw [if_neg (fun h => h.1 hinit), hsub, if_neg (by decide), if_neg (by decide),
      if_pos (show ("commit" : String) = "commit" from rfl)]
  unfold doGitCommit
  dsimp only
  rw [if_pos (⟨rfl, hw⟩ :
        argD ("commit" :: "-m" :: w :: ws) 1 = "-m"
          ∧ argD ("commit" :: "-m" :: w :: ws) 2 ≠ "")]
  rw [if_pos (by rw [hempty]; rfl)]

/-- C4 witness: evaluated in a freshly initialized repository. -/
theorem commit_empty_staging_noop_witness :
    ({ st0 with gitInit := true } : TermState).gitInit = true ∧
    ({ st0 with gitInit := true } : TermState).stagedFiles = [] ∧
    ("msg" : String) ≠ "" ∧
    doGit { st0 with gitInit := true } ["commit", "-m", "msg"]
      = ({ st0 with gitInit := true }, some "nothing to commit, working tree clean") :=
  ⟨rfl, rfl, by decide,
   commit_empty_staging_noop { st0 with gitInit := true } "msg" [] rfl rfl (by decide)⟩

/-! ## C7: checkout replaces the working tree wholesale -/

/-- C7: for an initialized repository and an existing branch `b`,
`git checkout b` makes `b` the current branch, clears the staging set,
and replaces the working VFS wholesale with the snapshot `b`'s head
denotes — the head commit's files when the head resolves, the empty VFS
when the head is unset; the result never depends on the previous working
VFS, so no merge of uncommitted changes is attempted. -/
theorem checkout_replaces_worktree (st : TermState) (b : String)
    (hinit : st.gitInit = true) (hb : b ≠ "") (hhas : vhas st.heads b = true) :
    (doGit st ["checkout", b]).1.currentBranch = b ∧
    (doGit st ["checkout", b]).1.stagedFiles = [] ∧
    (doGit st ["checkout", b]).1.files = snapshotOf st.commits (headIdOf st.heads b) ∧
    (headIdOf st.heads b = none → (doGit st ["checkout", b]).1.files = []) ∧
    (∀ i c, headIdOf st.heads b = some i →
      st.commits.find? (fun c' => c'.id == i) = some c →
      (doGit st ["checkout", b]).1.files = c.files) := by
  have hred : doGit st ["checkout", b] = doGitCheckout st ["checkout", b] := by
    unfold doGit
    dsimp only
    have hsub : argD ["checkout", b] 0 = "checkout" := rfl
    rw [if_neg (fun h => h.1 hinit), hsub, if_neg (by decide), if_neg (by decide),
        if_neg (by decide), if_neg (by decide), if_neg (by decide),
        if_pos (show ("checkout" : String) = "checkout" from rfl)]
  rw [hred]
  unfold doGitCheckout
  dsimp only
  have hb1 : argD ["checkout", b] 1 = b := rfl
  rw [hb1, if_neg hb, if_neg (fun h => h hhas)]
  refine ⟨rfl, rfl, rfl, ?_, ?_⟩
  · intro hnone
    show snapshotOf st.commits (headIdOf st.heads b) = []
    rw [hnone]
    rfl
  · intro i c hi hf
    show snapshotOf st.commits (headIdOf st.heads b) = c.files
    rw [hi]
    simp [snapshotOf, hf]

/-- C7 witness: checking out `dev` from a dirty working tree installs
exactly the head snapshot of `dev` and clears staging. -/
theorem checkout_replaces_worktree_witness :
    vhas st7.heads "dev" = true ∧
    (doGit st7 ["checkout", "dev"]).1.currentBranch = "dev" ∧
    (doGit st7 ["checkout", "dev"]).1.stagedFiles = [] ∧
    (doGit st7 ["checkout", "dev"]).1.files = c7commit.files := by
  have h := checkout_replaces_worktree st7 "dev" rfl (by decide) (by decide)
  exact ⟨by decide, h.1, h.2.1, h.2.2.2.2 0 c7commit rfl rfl⟩

/-! ## C3: commit with non-empty staging -/

/-- C3: with the repository initialized, staging non-empty and the
current head resolvable, `git commit -m <message>` appends exactly one
new commit whose snapshot is the parent head snapshot with every staged
path applied (copied from the working VFS when present there, removed
when absent), whose `parentId` is the current branch head (`none` for a
root commit), advances the current branch's head to the new commit's id,
and clears the staging set. -/
theorem commit_nonempty_staging_creates_commit (st : TermState) (w : String)
    (ws : List String) (hinit : st.gitInit = true) (hne : st.stagedFiles ≠ [])
    (hw : w ≠ "") (hres : headResolvable st st.currentBranch = true) :
    ∃ newC : GitCommit,
      (doGit st ("commit" :: "-m" :: w :: ws)).1.commits = st.commits ++ [newC] ∧
      newC.parentId = headIdOf st.heads st.currentBranch ∧
      (∀ p, vget newC.files p =
        if p ∈ st.stagedFiles then vget st.files p
        else vget (((getHeadCommit st).map (·.files)).getD []) p) ∧
      headIdOf (doGit st ("commit" :: "-m" :: w :: ws)).1.heads st.currentBranch
          = some newC.id ∧
      (doGit st ("commit" :: "-m" :: w :: ws)).1.stagedFiles = [] := by
  have hred : doGit st ("commit" :: "-m" :: w :: ws)
      = doGitCommit st ("commit" :: "-m" :: w :: ws) := by
    unfold doGit
    dsimp only
    have hsub : argD ("commit" :: "-m" :: w :: ws) 0 = "commit" := rfl
    rw [if_neg (fun h => h.1 hinit), hsub, if_neg (by decide), if_neg (by decide),
        if_pos (show ("commit" : String) = "commit" from rfl)]
  rw [hred]
  unfold doGitCommit
  dsimp only
  rw [if_pos (⟨rfl, hw⟩ :
        argD ("commit" :: "-m" :: w :: ws) 1 = "-m"
          ∧ argD ("commit" :: "-m" :: w :: ws) 2 ≠ "")]
  rw [if_neg (fun h => hne (List.length_eq_zero.mp h))]
  refine ⟨_, rfl, ?_, ?_, ?_, rfl⟩
  · -- parentId of the new commit is the current head
    show (getHeadCommit st).map (·.id) = headIdOf st.heads st.currentBranch
    unfold headResolvable at hres
    unfold getHeadCommit
    rw [hinit]
    simp only [if_true]
    cases hh : headIdOf st.heads st.currentBranch with
    | none => simp
    | some i =>
      rw [hh] at hres
      dsimp only at hres
      cases hf : st.commits.find? (fun c => c.id == i) with
      | none => rw [hf] at hres; simp at hres
      | some c =>
        have hc : c.id = i := by
          simpa using List.find?_some hf
        simp [hf, hc]
  · -- the snapshot is the parent snapshot with the staged paths applied
    intro p
    exact vget_foldl_applyStaged st.files st.stagedFiles _ p
  · -- the branch head now points at the new commit
    show headIdOf (vset st.heads st.currentBranch (some st.fresh)) st.currentBranch
        = some st.fresh
    unfold headIdOf
    rw [vget_vset_self]
    rfl

/-- C3 witness: a root commit in a one-file repository. -/
theorem commit_nonempty_staging_creates_commit_witness :
    (doGit st3 ["commit", "-m", "first"]).1.stagedFiles = [] ∧
    (doGit st3 ["commit", "-m", "first"]).1.commits.length = st3.commits.length + 1 := by
  have h := commit_nonempty_staging_creates_commit st3 "first" [] rfl (by decide)
    (by decide) (by decide)
  obtain ⟨c, h1, h2, h3, h4, h5⟩ := h
  refine ⟨h5, ?_⟩
  rw [h1]
  simp

/-! ## C9: unique-match tab completion -/

/-- C9: when exactly one completion candidate matches the partial last
token, a completion key-press replaces the part of that token after its
last slash with the match and appends a trailing space, unless the match
denotes a directory (ends with `/`), in which case no trailing space is
appended. -/
theorem tab_unique_match (files : VMap FileEntry) (cwd input m : String)
    (lastTime now : Nat) (h : tabCandidates files cwd input = [m]) :
    (applyTab files cwd input lastTime now).1 =
      String.intercalate " "
        ((splitSpaces input).dropLast
          ++ [uptoSlash (((splitSpaces input).getLast?).getD "") ++ m])
        ++ (if strEnds m "/" = true then "" else " ") := by
  unfold applyTab
  dsimp only
  rw [h]
  rw [if_pos (show ([m] : List String).length = 1 from rfl)]
  rw [setLast_eq_dropLast_append _ _ (splitSpaces_ne_nil input)]
  rfl

/-- C9 witness: with `src/index.js` and `src/app.js` present, completing
`cat src/i` yields `cat src/index.js ` (unique file match, trailing
space), and completing `cat sr` yields `cat src/` (unique directory
match, no trailing space). -/
theorem tab_unique_match_witness :
    tabCandidates files9 "/" "cat src/i" = ["index.js"] ∧
    (applyTab files9 "/" "cat src/i" 0 0).1 = "cat src/index.js " ∧
    tabCandidates files9 "/" "cat sr" = ["src/"] ∧
    (applyTab files9 "/" "cat sr" 0 0).1 = "cat src/" := by
  have h1 := tab_unique_match files9 "/" "cat src/i" "index.js" 0 0 (by decide)
  have h2 := tab_unique_match files9 "/" "cat sr" "src/" 0 0 (by decide)
  refine ⟨by decide, ?_, by decide, ?_⟩
  · rw [h1]; decide
  · rw [h2]; decide

/-! ## Rebase: the walks and the replay loop -/

theorem ancestorWalk_chain (commits : List GitCommit) {oid : Option Nat}
    {L : List GitCommit} (h : Chain commits oid L) :
    ∀ fuel, L.length ≤ fuel → ancestorWalk commits fuel oid = L.map (·.id) := by
  induction h with
  | nil =>
    intro fuel _
    cases fuel <;> simp [ancestorWalk]
  | @cons i c L hf hch ih =>
    intro fuel hlen
    cases fuel with
    | zero => simp at hlen
    | succ n =>
      have hlen' : L.length ≤ n := by
        simp only [List.length_cons] at hlen
        omega
      have hc : c.id = i := by simpa using List.find?_some hf
      unfold ancestorWalk
      rw [hf]
      dsimp only
      rw [ih n hlen']
      simp [hc]

theorem replayWalk_chain (commits : List GitCommit) (hist : List Nat) {oid : Option Nat}
    {L : List GitCommit} (h : Chain commits oid L) :
    ∀ fuel, L.length ≤ fuel →
      replayWalk commits fuel oid hist
        = (L.takeWhile (fun c => !(hist.contains c.id))).reverse := by
  induction h with
  | nil =>
    intro fuel _
    cases fuel <;> simp [replayWalk]
  | @cons i c L hf hch ih =>
    intro fuel hlen
    cases fuel with
    | zero => simp at hlen
    | succ n =>
      have hlen' : L.length ≤ n := by
        simp only [List.length_cons] at hlen
        omega
      have hc : c.id = i := by simpa using List.find?_some hf
      unfold replayWalk
      by_cases hmem : hist.contains i = true
      · have hmem' : i ∈ hist := by simpa using hmem
        rw [if_pos hmem]
        rw [List.takeWhile_cons]
        simp [hc, hmem']
      · have hmem' : ¬ i ∈ hist := by simpa using hmem
        rw [if_neg hmem, hf]
        dsimp only
        rw [ih n hlen']
        rw [List.takeWhile_cons]
        simp [hc, hmem']

theorem replayLoop_map_message (f : Nat) (l : Option Nat) (cs : List GitCommit) :
    (replayLoop f l cs).1.map (·.message) = cs.map (·.message) := by
  induction cs generalizing f l with
  | nil => simp [replayLoop]
  | cons c cs ih => simp [replayLoop, ih]

theorem replayLoop_map_files (f : Nat) (l : Option Nat) (cs : List GitCommit) :
    (replayLoop f l cs).1.map (·.files) = cs.map (·.files) := by
  induction cs generalizing f l with
  | nil => simp [replayLoop]
  | cons c cs ih => simp [replayLoop, ih]

theorem replayLoop_bounds (f : Nat) (l : Option Nat) (cs : List GitCommit) :
    ∀ x ∈ (replayLoop f l cs).1,
      f ≤ x.id ∧ x.id < f + cs.length ∧ f ≤ x.timestamp ∧ x.timestamp < f + cs.length := by
  induction cs generalizing f l with
  | nil => simp [replayLoop]
  | cons c cs ih =>
    intro x hx
    simp only [replayLoop, List.mem_cons] at hx
    rcases hx with rfl | hx
    · refine ⟨le_refl _, ?_, le_refl _, ?_⟩ <;> (simp only [List.length_cons]; omega)
    · have h := ih (f + 1) (some f) x hx
      simp only [List.length_cons]
      refine ⟨by omega, by omega, by omega, by omega⟩

theorem replayLoop_ids_nodup (f : Nat) (l : Option Nat) (cs : List GitCommit) :
    ((replayLoop f l cs).1.map (·.id)).Nodup := by
  induction cs generalizing f l with
  | nil => simp [replayLoop]
  | cons c cs ih =>
    simp only [replayLoop, List.map_cons]
    rw [List.nodup_cons]
    constructor
    · intro hmem
      obtain ⟨x, hx, hxid⟩ := List.mem_map.mp hmem
      have h := replayLoop_bounds (f + 1) (some f) cs x hx
      omega
    · exact ih (f + 1) (some f)

theorem replayLoop_parent_chain_cons (cs : List GitCommit) :
    ∀ (f : Nat) (l : Option Nat) (c : GitCommit),
      (replayLoop f l (c :: cs)).1.map (·.parentId)
        = l :: ((replayLoop f l (c :: cs)).1.map (fun x => some x.id)).dropLast := by
  induction cs with
  | nil =>
    intro f l c
    simp [replayLoop]
  | cons c' cs' ih =>
    intro f l c
    have h := ih (f + 1) (some f) c'
    simp only [replayLoop, List.map_cons] at h ⊢
    simp only [List.cons.injEq, true_and] at h
    rw [List.dropLast_cons_of_ne_nil (by simp), h]

theorem replayLoop_lastId (f : Nat) (l : Option Nat) (cs : List GitCommit) :
    (replayLoop f l cs).2.1 = if cs.length = 0 then l else some (f + cs.length - 1) := by
  induction cs generalizing f l with
  | nil => simp [replayLoop]
  | cons c cs ih =>
    show (replayLoop (f + 1) (some f) cs).2.1 = _
    rw [ih (f + 1) (some f)]
    cases cs with
    | nil => simp
    | cons c' cs' =>
      rw [if_neg (by simp), if_neg (by simp)]
      have harith : f + 1 + (c' :: cs').length - 1 = f + (c :: c' :: cs').length - 1 := by
        simp only [List.length_cons]
        omega
      rw [harith]

theorem replayLoop_last_facts (cs : List GitCommit) (hne : cs ≠ []) :
    ∀ (f : Nat) (l : Option Nat),
      ∃ lc c, (replayLoop f l cs).1.getLast? = some lc ∧ cs.getLast? = some c ∧
        lc.id = f + cs.length - 1 ∧ lc.files = c.files ∧
        (replayLoop f l cs).1.find? (fun x => x.id == f + cs.length - 1) = some lc := by
  induction cs with
  | nil => exact absurd rfl hne
  | cons c cs ih =>
    intro f l
    cases cs with
    | nil =>
      refine ⟨{ c with id := f, parentId := l, timestamp := f }, c, ?_, rfl, by simp, rfl, ?_⟩
      · simp [replayLoop]
      · simp [replayLoop]
    | cons c' cs' =>
      obtain ⟨lc, cl, h1, h2, h3, h4, h5⟩ := ih (by simp) (f + 1) (some f)
      refine ⟨lc, cl, ?_, ?_, ?_, h4, ?_⟩
      · simp only [replayLoop]
        rw [show ((replayLoop (f + 1) (some f) (c' :: cs')).1)
              = (replayLoop (f + 1) (some f) (c' :: cs')).1 from rfl] at h1
        simp only [replayLoop] at h1
        rw [List.getLast?_cons_cons]
        simpa [replayLoop] using h1
      · rw [List.getLast?_cons_cons]
        exact h2
      · rw [h3]
        simp only [List.length_cons]
        omega
      · have harith : f + (c :: c' :: cs').length - 1 = f + 1 + (c' :: cs').length - 1 := by
          simp only [List.length_cons]
          omega
        simp only [replayLoop, harith]
        rw [List.find?_cons_of_neg _ (by
          simp only [beq_iff_eq]
          simp only [List.length_cons]
          omega)]
        exact h5

/-! ## C5: rebase -/

theorem headIdOf_vset_self (m : VMap (Option Nat)) (b : String) (v : Option Nat) :
    headIdOf (vset m b v) b = v := by
  unfold headIdOf
  rw [vget_vset_self]
  rfl

/-- C5: for an initialized repository and an existing target branch
`tb`, given the complete parent chains `TL` (from `tb`'s head) and `CL`
(from the current branch's head), `git rebase tb` behaves as specified:
when `tb` is the current branch, or when no commits need replay, it
reports up-to-date and changes nothing; otherwise it appends one
re-created commit per replayed commit (same message and files, fresh ids
and timestamps distinct from every stored commit's and from each
other's), parent-chained first onto `tb`'s head and then onto each newly
created predecessor, advances the current branch's head to the last
replayed commit and replaces the working VFS with that commit's
snapshot. -/
theorem rebase_replays_commits (st : TermState) (tb : String)
    (TL CL : List GitCommit)
    (hinit : st.gitInit = true) (htb : tb ≠ "") (hhas : vhas st.heads tb = true)
    (hTL : Chain st.commits (headIdOf st.heads tb) TL)
    (hCL : Chain st.commits (headIdOf st.heads st.currentBranch) CL)
    (hTLlen : TL.length ≤ st.commits.length)
    (hCLlen : CL.length ≤ st.commits.length)
    (hids : IdsBelow st) :
    (tb = st.currentBranch →
      doGit st ["rebase", tb]
        = (st, some ("Current branch " ++ st.currentBranch ++ " is up to date."))) ∧
    (tb ≠ st.currentBranch → toReplaySpec TL CL = [] →
      doGit st ["rebase", tb]
        = (st, some ("Current branch " ++ st.currentBranch ++ " is up to date."))) ∧
    (tb ≠ st.currentBranch → toReplaySpec TL CL ≠ [] →
      ∃ news : List GitCommit,
        (doGit st ["rebase", tb]).1.commits = st.commits ++ news ∧
        news.map (·.message) = (toReplaySpec TL CL).map (·.message) ∧
        news.map (·.files) = (toReplaySpec TL CL).map (·.files) ∧
        (∀ c ∈ news, ∀ c' ∈ st.commits, c.id ≠ c'.id ∧ c.timestamp ≠ c'.timestamp) ∧
        (news.map (·.id)).Nodup ∧
        news.map (·.parentId)
          = headIdOf st.heads tb :: (news.map (fun c => some c.id)).dropLast ∧
        (∃ lc, news.getLast? = some lc ∧
          headIdOf (doGit st ["rebase", tb]).1.heads st.currentBranch = some lc.id ∧
          (doGit st ["rebase", tb]).1.files = lc.files ∧
          some lc.files = ((toReplaySpec TL CL).getLast?).map (·.files) ∧
          (doGit st ["rebase", tb]).2
            = some ("Successfully rebased and updated " ++ st.currentBranch ++ "."))) := by
  have hred : doGit st ["rebase", tb] = doGitRebase st ["rebase", tb] := by
    unfold doGit
    dsimp only
    have hsub : argD ["rebase", tb] 0 = "rebase" := rfl
    rw [if_neg (fun h => h.1 hinit), hsub, if_neg (by decide), if_neg (by decide),
        if_neg (by decide), if_neg (by decide), if_neg (by decide), if_neg (by decide),
        if_pos (show ("rebase" : String) = "rebase" from rfl)]
  have hb1 : argD ["rebase", tb] 1 = tb := rfl
  rw [hred]
  unfold doGitRebase
  dsimp only
  rw [hb1, if_neg htb, if_neg (fun h => h hhas)]
  rw [ancestorWalk_chain st.commits hTL (st.commits.length + 1) (by omega)]
  rw [replayWalk_chain st.commits (TL.map (·.id)) hCL (st.commits.length + 1) (by omega)]
  rw [show (CL.takeWhile (fun c => !((TL.map (·.id)).contains c.id))).reverse
        = toReplaySpec TL CL from rfl]
  refine ⟨?_, ?_, ?_⟩
  · intro he
    rw [if_pos he]
  · intro hne hempty
    rw [if_neg hne, if_pos hempty]
  · intro hne hnonempty
    rw [if_neg hne]
    obtain ⟨rc, rs, hRs⟩ : ∃ rc rs, toReplaySpec TL CL = rc :: rs := by
      cases hx : toReplaySpec TL CL with
      | nil => exact absurd hx hnonempty
      | cons a b => exact ⟨a, b, rfl⟩
    rw [hRs]
    rw [if_neg (by simp)]
    obtain ⟨lc, cl, hg1, hg2, hg3, hg4, hg5⟩ :=
      replayLoop_last_facts (rc :: rs) (by simp) st.fresh (headIdOf st.heads tb)
    have hlast : (replayLoop st.fresh (headIdOf st.heads tb) (rc :: rs)).2.1
        = some (st.fresh + (rc :: rs).length - 1) := by
      rw [replayLoop_lastId]
      rw [if_neg (by simp)]
    refine ⟨(replayLoop st.fresh (headIdOf st.heads tb) (rc :: rs)).1,
      rfl, replayLoop_map_message _ _ _, replayLoop_map_files _ _ _, ?_, 
      replayLoop_ids_nodup _ _ _, replayLoop_parent_chain_cons rs st.fresh _ rc, ?_⟩
    · intro c hc c' hc'
      have hb := replayLoop_bounds st.fresh (headIdOf st.heads tb) (rc :: rs) c hc
      have ho := hids c' hc'
      exact ⟨by omega, by omega⟩
    · refine ⟨lc, hg1, ?_, ?_, ?_, rfl⟩
      · show headIdOf (vset st.heads st.currentBranch
            (replayLoop st.fresh (headIdOf st.heads tb) (rc :: rs)).2.1) st.currentBranch
            = some lc.id
        rw [headIdOf_vset_self, hlast, hg3]
      · show ((Option.map (fun x => x.files)
            (match (replayLoop st.fresh (headIdOf st.heads tb) (rc :: rs)).2.1 with
              | none => none
              | some i =>
                (st.commits ++ (replayLoop st.fresh (headIdOf st.heads tb) (rc :: rs)).1).find?
                  (fun c => c.id == i))).getD []) = lc.files
        rw [hlast]
        dsimp only
        rw [find?_append_of_none st.commits _ _ (List.find?_eq_none.mpr (fun x hx => by
          have hxi := (hids x hx).1
          simp only [beq_iff_eq, List.length_cons]
          omega))]
        rw [hg5]
        rfl
      · rw [hg4, hg2]
        rfl

/-- C5 witness: on `feature` (one commit off the common base) rebasing
onto `main` (one newer commit) appends one replayed commit, installs its
snapshot and reports success. -/
theorem rebase_replays_commits_witness :
    (doGit st5 ["rebase", "main"]).1.commits.length = 4 ∧
    (doGit st5 ["rebase", "main"]).1.files = cm2.files ∧
    (doGit st5 ["rebase", "main"]).2
      = some "Successfully rebased and updated feature." := by
  have hTL : Chain st5.commits (headIdOf st5.heads "main") [cm1, cm0] :=
    Chain.cons (by decide) (Chain.cons (by decide) Chain.nil)
  have hCL : Chain st5.commits (headIdOf st5.heads st5.currentBranch) [cm2, cm0] :=
    Chain.cons (by decide) (Chain.cons (by decide) Chain.nil)
  have h := rebase_replays_commits st5 "main" [cm1, cm0] [cm2, cm0] rfl (by decide)
    (by decide) hTL hCL (by decide) (by decide) (by unfold IdsBelow; decide)
  obtain ⟨news, hcommits, hmsg, hfiles, hfresh, hnodup, hparents,
    lc, hl1, hl2, hl3, hl4, hl5⟩ := h.2.2 (by decide) (by decide)
  refine ⟨?_, ?_, ?_⟩
  · rw [hcommits, List.length_append]
    have h1 : news.length = 1 := by
      have hl := congrArg List.length hmsg
      simp only [List.length_map] at hl
      rw [hl]
      decide
    rw [h1]
    decide
  · have hcf : ((toReplaySpec [cm1, cm0] [cm2, cm0]).getLast?).map (·.files)
        = some cm2.files := by decide
    rw [hcf] at hl4
    rw [hl3]
    exact Option.some.injEq _ _ ▸ hl4
  · have hout : ("Successfully rebased and updated " ++ st5.currentBranch ++ ".")
        = "Successfully rebased and updated feature." := by decide
    rw [← hout]
    exact hl5
